import Mathlib

/-!
Shallow embedding of the DOS MZ function-discovery engine
(`re/scripts/discover_functions.py`, class `DOSExeAnalyzer`).

The input file is modelled as `List Nat` (one element per byte; real inputs
have every element < 256).  Python's `struct.unpack_from('<H', ...)` becomes
`le16`; `bytes.find` with resume-at-match+1 becomes a filter over all indices;
the `while` loops with manual index advancement become fuel-indexed structural
recursions where the fuel (the code-region length) strictly dominates the
number of loop iterations, so the fuel never runs out on the range where the
Python loop would still be running.

Only the pure analysis core is embedded.  The sha256 provenance hash and the
UTC timestamp of the exported artifact are external effects (hash library,
wall clock) with no bearing on any functional claim, and are omitted from the
embedded export record.
-/

namespace Discover

/-- Little-endian 16-bit read at byte offset `off`
(Python `struct.unpack_from('<H', data, off)[0]`).  Out-of-range bytes read
as 0; the embedding only calls this on in-range offsets. -/
def le16 (data : List Nat) (off : Nat) : Nat :=
  data.getD off 0 + 256 * data.getD (off + 1) 0

/-- The MZ header fields read by `DOSExeAnalyzer._parse_mz_header`. -/
structure MZHeader where
  e_cblp : Nat
  e_cp : Nat
  e_crlc : Nat
  e_cparhdr : Nat
  e_minalloc : Nat
  e_maxalloc : Nat
  e_ss : Nat
  e_sp : Nat
  e_csum : Nat
  e_ip : Nat
  e_cs : Nat
  e_lfarlc : Nat
deriving DecidableEq, Inhabited

/-- `DOSExeAnalyzer._parse_mz_header`: the only validation performed is the
two-byte magic check `data[:2] != b'MZ'` (`'M'` = 77, `'Z'` = 90); reading the
fixed-offset fields additionally needs at least 26 bytes (Python raises
`struct.error` on a shorter buffer).  No other check exists in the source:
in particular neither `code_start` nor the entry point is bounds-checked. -/
def parseMZ (data : List Nat) : Option MZHeader :=
  if data.take 2 = [77, 90] then
    if 26 ≤ data.length then
      some { e_cblp := le16 data 2, e_cp := le16 data 4, e_crlc := le16 data 6,
             e_cparhdr := le16 data 8, e_minalloc := le16 data 10,
             e_maxalloc := le16 data 12, e_ss := le16 data 14,
             e_sp := le16 data 16, e_csum := le16 data 18,
             e_ip := le16 data 20, e_cs := le16 data 22, e_lfarlc := le16 data 24 }
    else none
  else none

/-- `self.code_start = self.e_cparhdr * 16` (= `header_size`). -/
def MZHeader.codeStart (h : MZHeader) : Nat := h.e_cparhdr * 16

/-- `self.entry_point = self.e_cs * 16 + self.e_ip`. -/
def MZHeader.entryPoint (h : MZHeader) : Nat := h.e_cs * 16 + h.e_ip

/-- The code region `self.data[self.code_start:]` scanned by every pass. -/
def codeRegion (data : List Nat) (h : MZHeader) : List Nat :=
  data.drop h.codeStart

/-! ## Prologue scan (`find_prologue_patterns`) -/

/-- The next-byte whitelist applied to a bare `0x55` (PUSH BP) match. -/
def whitelistBytes : List Nat := [0x8B, 0x89, 0x83, 0x56, 0x57, 0x1E, 0x06]

/-- `code.find(pattern, idx) == idx`: the byte pattern occurs at `idx`. -/
def matchAt (code : List Nat) (idx : Nat) (pat : List Nat) : Bool :=
  pat.isPrefixOf (code.drop idx)

/-- Acceptance of a bare `0x55` match: the source checks the following byte
against the whitelist only when that byte exists (`idx + 1 < len(code)`); a
match with no following byte falls through to `prologues.add`. -/
def bareAccept (code : List Nat) (idx : Nat) : Bool :=
  matchAt code idx [0x55] &&
    (!(decide (idx + 1 < code.length)) ||
      decide (code.getD (idx + 1) 0 ∈ whitelistBytes))

/-- Index `idx` of the code region enters the prologue set: one of the five
patterns of `PROLOGUE_PATTERNS` matches there (the bare `0x55` form subject
to `bareAccept`).  Because the Python scan resumes at `idx + 1` after every
match (accepted or rejected), the final set contains every accepted index. -/
def isPrologueIdx (code : List Nat) (idx : Nat) : Bool :=
  matchAt code idx [0x55, 0x8B, 0xEC] ||
  matchAt code idx [0x55, 0x89, 0xE5] ||
  matchAt code idx [0x55, 0x8B, 0xE5] ||
  matchAt code idx [0xC8] ||
  bareAccept code idx

/-- `find_prologue_patterns`: absolute offsets (`code_start + idx`) of all
accepted pattern matches in the code region. -/
def prologueOffsets (data : List Nat) (h : MZHeader) : List Nat :=
  ((List.range (codeRegion data h).length).filter
    (fun idx => isPrologueIdx (codeRegion data h) idx)).map
    (fun idx => h.codeStart + idx)

/-! ## Call scan (`find_call_targets`) -/

/-- Python `struct.unpack_from('<h', ...)`: two's-complement signed view of a
16-bit little-endian value. -/
def toSigned16 (u : Nat) : Int := if u < 32768 then (u : Int) else (u : Int) - 65536

/-- Near-call target: position after the 3-byte instruction plus the signed
16-bit relative displacement (`self.code_start + i + 3 + rel16`). -/
def nearTarget (cs : Nat) (code : List Nat) (i : Nat) : Int :=
  (cs : Int) + (i : Int) + 3 + toSigned16 (le16 code (i + 1))

/-- Far-call target `segment * 16 + offset` with `offset` at `i+1` and
`segment` at `i+3`. -/
def farTarget (code : List Nat) (i : Nat) : Nat :=
  le16 code (i + 3) * 16 + le16 code (i + 1)

/-- The `while i < len(code) - 3` loop of `find_call_targets`, returning the
accepted `(source, target)` edges in scan order.  `source = code_start + i`
is the file offset of the opcode byte; a near call (`0xE8`) advances by 3
and records its edge when the operand fits (`i + 3 ≤ len`, true under the
loop guard) and the target lies in `[0, len(file))`; a far call (`0x9A`)
advances by 5 with the analogous operand/bounds tests; anything else —
including the unresolved indirect form `0xFF` — advances by 1.  The fuel
argument starts at the code-region length, which strictly exceeds the
number of remaining iterations whenever the loop condition holds, so the
fuel-0 fallback is never taken on a live loop. -/
def callEdgesAux (cs dlen : Nat) (code : List Nat) : Nat → Nat → List (Nat × Nat)
  | 0, _ => []
  | fuel + 1, i =>
    if i < code.length - 3 then
      if code.getD i 0 = 0xE8 then
        (if i + 3 ≤ code.length ∧ 0 ≤ nearTarget cs code i ∧
            nearTarget cs code i < (dlen : Int) then
          [(cs + i, (nearTarget cs code i).toNat)]
        else []) ++ callEdgesAux cs dlen code fuel (i + 3)
      else if code.getD i 0 = 0x9A then
        (if i + 5 ≤ code.length ∧ farTarget code i < dlen then
          [(cs + i, farTarget code i)]
        else []) ++ callEdgesAux cs dlen code fuel (i + 5)
      else callEdgesAux cs dlen code fuel (i + 1)
    else []

/-- All accepted call edges of the image, in discovery (scan) order. -/
def callEdges (data : List Nat) (h : MZHeader) : List (Nat × Nat) :=
  callEdgesAux h.codeStart data.length (codeRegion data h) (codeRegion data h).length 0

/-- The call-target set (`self.call_targets`), as a list with duplicates;
only membership matters. -/
def callTargets (data : List Nat) (h : MZHeader) : List Nat :=
  (callEdges data h).map (fun e => e.2)

/-- `self.call_sources[addr]`: the call-site offsets recorded against target
`addr`, in discovery order (each accepted edge appends its source). -/
def callSourcesFor (data : List Nat) (h : MZHeader) (addr : Nat) : List Nat :=
  ((callEdges data h).filter (fun e => e.2 = addr)).map (fun e => e.1)

/-! ## Interrupt scan (`find_interrupt_handlers`) -/

/-- The `while i < len(code) - 1` loop: `(absolute offset, vector)` pairs for
every `0xCD imm8` occurrence, in scan order (advance 2 on a match, else 1). -/
def intOccsAux (cs : Nat) (code : List Nat) : Nat → Nat → List (Nat × Nat)
  | 0, _ => []
  | fuel + 1, i =>
    if i < code.length - 1 then
      if code.getD i 0 = 0xCD then
        (cs + i, code.getD (i + 1) 0) :: intOccsAux cs code fuel (i + 2)
      else intOccsAux cs code fuel (i + 1)
    else []

def intOccs (data : List Nat) (h : MZHeader) : List (Nat × Nat) :=
  intOccsAux h.codeStart (codeRegion data h) (codeRegion data h).length 0

/-- Python `max(candidates)` over a nonempty list, `none` when empty. -/
def maxElem? : List Nat → Option Nat
  | [] => none
  | k :: ks =>
    match maxElem? ks with
    | none => some k
    | some m => some (max k m)

/-- `_find_containing_function`: the numerically largest known function start
that is ≤ `off`, or `none` when every known start lies beyond `off`. -/
def containingFunction (keys : List Nat) (off : Nat) : Option Nat :=
  maxElem? (keys.filter (fun k => k ≤ off))

/-! ## Hex formatting (Python f-strings) -/

/-- Uppercase hex digit, as in Python's `%X`. -/
def hexDigitChar (n : Nat) : Char :=
  if n < 10 then Char.ofNat (48 + n) else Char.ofNat (55 + n)

def hexCharsAux : Nat → Nat → List Char
  | 0, _ => []
  | fuel + 1, n => if n = 0 then [] else hexCharsAux fuel (n / 16) ++ [hexDigitChar (n % 16)]

/-- Uppercase hex digits of `n`, no leading zeros (`["0"]` for 0). -/
def hexChars (n : Nat) : List Char :=
  if n = 0 then [Char.ofNat 48] else hexCharsAux n n

def hexStr (n : Nat) : String := (hexChars n).asString

/-- `f"0x{n:X}"`. -/
def hexAddr (n : Nat) : String := "0x" ++ hexStr n

/-- `f"0x{n:02X}"` (interrupt vector tags). -/
def hex2 (n : Nat) : String :=
  if n < 16 then "0x0" ++ hexStr n else "0x" ++ hexStr n

/-- `f"FUN_{n:05X}"` padding. -/
def hex5 (n : Nat) : String :=
  (List.replicate (5 - (hexChars n).length) (Char.ofNat 48)).asString ++ hexStr n

/-- Keep-first deduplication, as done by the
`if int_str not in int_usage[func_addr]` append guard. -/
def dedupFirstAux (seen : List String) : List String → List String
  | [] => []
  | x :: xs =>
    if x ∈ seen then dedupFirstAux seen xs
    else x :: dedupFirstAux (x :: seen) xs

def dedupFirst (l : List String) : List String := dedupFirstAux [] l

/-- The interrupt-usage tag list attributed to function `addr` once all
function starts (`keys`) are known: the vectors of the occurrences whose
containing function is `addr`, formatted `0xNN`, deduplicated keeping the
first occurrence, in scan order. -/
def intUsageFor (data : List Nat) (h : MZHeader) (keys : List Nat) (addr : Nat) :
    List String :=
  dedupFirst (((intOccs data h).filter
    (fun p => containingFunction keys p.1 = some addr)).map (fun p => hex2 p.2))

/-! ## Subsystem classification (`classify_subsystem`) -/

/-- `DOSExeAnalyzer.classify_subsystem` (the Python method also receives the
function address but never uses it).  A fixed priority table over the
interrupt-usage tags, first match wins. -/
def classify_subsystem (int_usage : List String) : String :=
  if "0x10" ∈ int_usage then "video"
  else if "0x21" ∈ int_usage then "dos"
  else if "0x16" ∈ int_usage then "input"
  else if "0x08" ∈ int_usage ∨ "0x1C" ∈ int_usage then "timer"
  else if "0x33" ∈ int_usage then "mouse"
  else if "0x80" ∈ int_usage ∨ "0x81" ∈ int_usage then "sound"
  else "unknown"

/-! ## Candidate merge (`analyze`, steps 1–4) -/

/-- Insertion into a strictly sorted list, dropping duplicates. -/
def insertKey (a : Nat) : List Nat → List Nat
  | [] => [a]
  | b :: bs =>
    if a < b then a :: b :: bs
    else if a = b then b :: bs
    else b :: insertKey a bs

/-- The final key set of `self.functions`, sorted ascending (export order).
`analyze` inserts the synthetic entry record first, then every
high-confidence address (prologue ∩ call target) and every remaining call
target, each subject to `addr >= code_start` and to not being present
already.  High ∪ medium = all call targets, and no loop ever inserts a
prologue-only address, so the key set is exactly
`{entry_point} ∪ {t ∈ call targets | t ≥ code_start}`.  Python iterates the
candidate sets in unspecified order; the resulting dict key set — and every
per-key record — is order-independent, and the export sorts the keys, so the
sorted deduplicated list below is the faithful observable outcome. -/
def sortedKeys (data : List Nat) (h : MZHeader) : List Nat :=
  ((callTargets data h).filter (fun a => h.codeStart ≤ a)).foldr insertKey
    [h.entryPoint]

/-- The `callers` list stored in a record at creation: the synthetic entry
record is created (step 1) before merging with the default empty list, and
both merge loops skip addresses already present, so the call-source map is
never consulted for the entry address. -/
def rawCallers (data : List Nat) (h : MZHeader) (addr : Nat) : List Nat :=
  if addr = h.entryPoint then [] else callSourcesFor data h addr

/-! ## Size estimation (`estimate_function_sizes`) -/

/-- Return-family opcodes `RET_NEAR`, `RET_NEAR_IMM`, `RET_FAR`, `RET_FAR_IMM`. -/
def isRetByte (b : Nat) : Bool := b = 0xC3 || b = 0xC2 || b = 0xCB || b = 0xCA

/-- Index of the first return-family byte of a list, if any (the Python
`for j, b in enumerate(code)` search; `ret_offset = j + 1` is never 0, so
the `if ret_offset:` truthiness test is exactly an `Option` match). -/
def firstRetIdx : List Nat → Option Nat
  | [] => none
  | b :: bs => if isRetByte b then some 0 else (firstRetIdx bs).map (fun j => j + 1)

/-- Python slice `l[a:b]` for natural bounds (clips at the list end; empty
when `b ≤ a`). -/
def pySlice (l : List Nat) (a b : Nat) : List Nat := (l.drop a).take (b - a)

/-- Size assigned to the function starting at `addr` whose scan window is
bounded by `next` (the next function start, or the file length for the last
one): `j + 1` for the first return byte at window index `j`, otherwise
`min(next - addr, 0xFFFF)` computed over Python integers (which may be
negative when `next < addr`). -/
def sizeFor (data : List Nat) (addr next : Nat) : Int :=
  match firstRetIdx (pySlice data addr next) with
  | some j => (j : Int) + 1
  | none => min ((next : Int) - (addr : Int)) 65535

/-! ## Export (`export_json`) -/

/-- One element of the exported `functions` array.  `entryAddr` and
`callerAddrs` carry the numeric values that `entry_linear` and `callers`
serialize in hex (`entry_linear = hexAddr entryAddr` and
`callers = callerAddrs.map hexAddr` by construction); the JSON itself holds
only the strings. -/
structure ExportedFunction where
  name : String
  entryAddr : Nat
  entry_linear : String
  size_bytes : Int
  stack_frame_size : Nat
  subsystem : String
  callerAddrs : List Nat
  callers : List String
  int_usage : List String
  source_recording_id : String
  notes : String
deriving DecidableEq, Inhabited

/-- The exported record for the function at `addr` with scan window bounded
by `next`, given the complete key set `keys`.  Field by field this is the
`FunctionInfo` created in `analyze` (name/callers/notes at creation time),
mutated by the interrupt pass (`int_usage`, `subsystem` — Python only calls
`classify_subsystem` for functions with at least one attributed interrupt,
but an empty tag list classifies to the `"unknown"` default anyway) and the
size pass, then serialized with `callers[:10]`. -/
def mkRecord (data : List Nat) (h : MZHeader) (keys : List Nat) (addr next : Nat) :
    ExportedFunction :=
  let ints := intUsageFor data h keys addr
  { name := if addr = h.entryPoint then "entry" else "FUN_" ++ hex5 addr
    entryAddr := addr
    entry_linear := hexAddr addr
    size_bytes := sizeFor data addr next
    stack_frame_size := 0
    subsystem := classify_subsystem ints
    callerAddrs := (rawCallers data h addr).take 10
    callers := ((rawCallers data h addr).take 10).map hexAddr
    int_usage := ints
    source_recording_id := ""
    notes :=
      if addr = h.entryPoint then "Program entry point"
      else if addr ∈ prologueOffsets data h then "auto-discovered (prologue+call)"
      else "auto-discovered (call target)" }

/-- Builds the exported records for the (sorted) tail `l` of the key list;
each record's window is bounded by the following key, the last by the file
length. -/
def buildExport (data : List Nat) (h : MZHeader) (keys : List Nat) :
    List Nat → List ExportedFunction
  | [] => []
  | a :: rest =>
    mkRecord data h keys a (match rest with | [] => data.length | b :: _ => b) ::
      buildExport data h keys rest

/-- The full pipeline: parse the header, run `analyze`, export the
`functions` array of `export_json` (`none` when header parsing fails; the
sha256 and timestamp provenance fields are external effects, omitted). -/
def exportFunctions (data : List Nat) : Option (List ExportedFunction) :=
  (parseMZ data).map (fun h => buildExport data h (sortedKeys data h) (sortedKeys data h))

/-! ## Specification-side restatement of the size rule

The following two definitions follow the wording of the specification for
the size estimator (window bounded by the next function start, first
return-family opcode in the window, clamp when none is found); they are
compared against the source-derived `sizeFor`. -/

/-- The consecutive offsets `a, a+1, …, a+n-1`. -/
def upFrom (a : Nat) : Nat → List Nat
  | 0 => []
  | n + 1 => a :: upFrom (a + 1) n

/-- The offset of the first return-family opcode in the window
`[addr, next)`, per the specification's wording.  Offsets beyond the end of
the file hold no byte, hence no return opcode (`getD` default 0 is not a
return opcode). -/
def specFirstRet (data : List Nat) (addr next : Nat) : Option Nat :=
  ((upFrom addr (next - addr)).filter (fun k => isRetByte (data.getD k 0))).head?

/-- The specification's size rule: `(return_opcode_offset - this_start + 1)`
when a return opcode occurs in the window, else
`min(next_function_start - this_start, 65535)`. -/
def specSizeBytes (data : List Nat) (addr next : Nat) : Int :=
  match specFirstRet data addr next with
  | some k => (k : Int) - (addr : Int) + 1
  | none => min ((next : Int) - (addr : Int)) 65535

/-! ## Concrete images used by counterexamples and witnesses

Every image begins with a 26-byte MZ header (`'M' = 77`, `'Z' = 90`); where
the header declares 2 paragraphs, bytes 26–31 are padding and the code
region starts at offset 32. -/

/-- 26-byte image whose header declares 4096 header paragraphs
(`code_start` = 65536) and CS:IP = 0x1000:0 (`entry_linear` = 65536), both
far beyond the end of the buffer. -/
def imgOOB : List Nat :=
  [77, 90, 0, 0, 0, 0, 0, 0, 0, 16, 0, 0, 0, 0, 0, 0, 0, 0, 0, 0, 0, 0, 0, 16, 0, 0]

/-- 32-byte image, `code_start` = 32 (empty code region), entry point 100
(out of bounds). -/
def imgEntryOOB : List Nat :=
  [77, 90, 0, 0, 0, 0, 0, 0, 2, 0, 0, 0, 0, 0, 0, 0, 0, 0, 0, 0, 100, 0, 0, 0,
   0, 0, 0, 0, 0, 0, 0, 0]

/-- 36-byte image, `code_start` = 32, entry point 32; the code region is a
PUSH BP; MOV BP,SP prologue followed by RET.  The entry point is matched by
the prologue scan but is not a call target. -/
def imgEntryProl : List Nat :=
  [77, 90, 0, 0, 0, 0, 0, 0, 2, 0, 0, 0, 0, 0, 0, 0, 0, 0, 0, 0, 0, 0, 2, 0,
   0, 0, 0, 0, 0, 0, 0, 0, 0x55, 0x8B, 0xEC, 0xC3]

/-- `imgEntryProl` with a second prologue block at offset 36, which is a
prologue-only address distinct from the entry point. -/
def imgTwoProl : List Nat :=
  [77, 90, 0, 0, 0, 0, 0, 0, 2, 0, 0, 0, 0, 0, 0, 0, 0, 0, 0, 0, 0, 0, 2, 0,
   0, 0, 0, 0, 0, 0, 0, 0, 0x55, 0x8B, 0xEC, 0xC3, 0x55, 0x8B, 0xEC, 0xC3]

/-- 68-byte image, entry 32; the code region holds eleven near calls, all
resolving to target 40, followed by three NOPs so the last call sits inside
the scan guard. -/
def imgManyCalls : List Nat :=
  [77, 90, 0, 0, 0, 0, 0, 0, 2, 0, 0, 0, 0, 0, 0, 0, 0, 0, 0, 0, 0, 0, 2, 0,
   0, 0, 0, 0, 0, 0, 0, 0,
   0xE8, 0x05, 0x00, 0xE8, 0x02, 0x00, 0xE8, 0xFF, 0xFF, 0xE8, 0xFC, 0xFF,
   0xE8, 0xF9, 0xFF, 0xE8, 0xF6, 0xFF, 0xE8, 0xF3, 0xFF, 0xE8, 0xF0, 0xFF,
   0xE8, 0xED, 0xFF, 0xE8, 0xEA, 0xFF, 0xE8, 0xE7, 0xFF, 0x90, 0x90, 0x90]

/-- 46-byte image, entry 32; a near call at offset 40 resolves to target 32,
so the entry point is itself an accepted call target with a recorded call
site. -/
def imgSelfEntry : List Nat :=
  [77, 90, 0, 0, 0, 0, 0, 0, 2, 0, 0, 0, 0, 0, 0, 0, 0, 0, 0, 0, 0, 0, 2, 0,
   0, 0, 0, 0, 0, 0, 0, 0,
   0x90, 0x90, 0x90, 0x90, 0x90, 0x90, 0x90, 0x90, 0xE8, 0xF5, 0xFF,
   0x90, 0x90, 0x90]

/-- 34-byte image whose code region is `[0x90, 0x55]`: the bare PUSH BP
match sits on the last byte of the file, with no following byte. -/
def imgTailPush : List Nat :=
  [77, 90, 0, 0, 0, 0, 0, 0, 2, 0, 0, 0, 0, 0, 0, 0, 0, 0, 0, 0, 0, 0, 2, 0,
   0, 0, 0, 0, 0, 0, 0, 0, 0x90, 0x55]

/-! # Lemmas -/

theorem getD_drop (l : List Nat) (n i : Nat) :
    (l.drop n).getD i 0 = l.getD (n + i) 0 := by
  induction l generalizing n with
  | nil => simp
  | cons a as ih =>
    cases n with
    | zero => simp
    | succ m =>
      rw [List.drop_succ_cons, ih m, Nat.succ_add, List.getD_cons_succ]

theorem getD_take_lt (l : List Nat) (n i : Nat) (h : i < n) :
    (l.take n).getD i 0 = l.getD i 0 := by
  induction l generalizing n i with
  | nil => simp
  | cons a as ih =>
    cases n with
    | zero => omega
    | succ m =>
      cases i with
      | zero => simp
      | succ k =>
        rw [List.take_succ_cons, List.getD_cons_succ, List.getD_cons_succ]
        exact ih m k (by omega)

theorem firstRetIdx_some (l : List Nat) (j : Nat) (h : firstRetIdx l = some j) :
    j < l.length ∧ isRetByte (l.getD j 0) = true ∧
      ∀ j', j' < j → isRetByte (l.getD j' 0) = false := by
  induction l generalizing j with
  | nil => simp [firstRetIdx] at h
  | cons b bs ih =>
    by_cases hb : isRetByte b
    · rw [firstRetIdx, if_pos hb] at h
      cases h
      exact ⟨by simp, by simpa using hb, fun j' hj' => absurd hj' (by omega)⟩
    · rw [firstRetIdx, if_neg hb] at h
      obtain ⟨j0, hj0, rfl⟩ := Option.map_eq_some'.mp h
      obtain ⟨h1, h2, h3⟩ := ih j0 hj0
      refine ⟨by simpa using h1, by simpa using h2, ?_⟩
      intro j' hj'
      cases j' with
      | zero => simpa using hb
      | succ k => simpa using h3 k (by omega)

theorem firstRetIdx_none (l : List Nat) (h : firstRetIdx l = none) :
    ∀ j, j < l.length → isRetByte (l.getD j 0) = false := by
  induction l with
  | nil => intro j hj; simp at hj
  | cons b bs ih =>
    by_cases hb : isRetByte b
    · rw [firstRetIdx, if_pos hb] at h; cases h
    · rw [firstRetIdx, if_neg hb] at h
      have hbs : firstRetIdx bs = none := by
        cases hx : firstRetIdx bs with
        | none => rfl
        | some j => rw [hx] at h; simp at h
      intro j hj
      cases j with
      | zero => simpa using hb
      | succ k => simpa using ih hbs k (by simpa using hj)

theorem filterHead_some (p : Nat → Bool) (a n k : Nat)
    (h1 : a ≤ k) (h2 : k < a + n) (h3 : p k = true)
    (h4 : ∀ m, a ≤ m → m < k → p m = false) :
    ((upFrom a n).filter p).head? = some k := by
  induction n generalizing a with
  | zero => omega
  | succ n ih =>
    by_cases hpa : p a
    · have hka : k = a := by
        by_contra hne
        have := h4 a le_rfl (by omega)
        simp [hpa] at this
      subst hka
      simp [upFrom, List.filter_cons, hpa]
    · have hak : a < k := by
        rcases Nat.lt_or_ge a k with h | h
        · exact h
        · have : a = k := by omega
          subst this; simp [h3] at hpa
      rw [upFrom, List.filter_cons, if_neg (by simpa using hpa)]
      exact ih (a + 1) hak (by omega) (fun m hm1 hm2 => h4 m (by omega) hm2)

theorem filterHead_none (p : Nat → Bool) (a n : Nat)
    (h : ∀ m, a ≤ m → m < a + n → p m = false) :
    ((upFrom a n).filter p).head? = none := by
  induction n generalizing a with
  | zero => simp [upFrom]
  | succ n ih =>
    rw [upFrom, List.filter_cons, if_neg (by simpa using h a le_rfl (by omega))]
    exact ih (a + 1) (fun m hm1 hm2 => h m (by omega) (by omega))

theorem pySlice_length (data : List Nat) (a next : Nat) :
    (pySlice data a next).length = min (next - a) (data.length - a) := by
  simp [pySlice]

theorem pySlice_getD (data : List Nat) (a next j : Nat)
    (hj : j < (pySlice data a next).length) :
    (pySlice data a next).getD j 0 = data.getD (a + j) 0 := by
  have hjn : j < next - a := by
    have := pySlice_length data a next
    omega
  rw [pySlice, getD_take_lt _ _ _ hjn, getD_drop]

/-- The source's size computation satisfies the specification's size rule,
for every window whatever. -/
theorem sizeFor_eq_spec (data : List Nat) (a next : Nat) :
    sizeFor data a next = specSizeBytes data a next := by
  unfold sizeFor specSizeBytes specFirstRet
  cases hfr : firstRetIdx (pySlice data a next) with
  | some j =>
    obtain ⟨hj, hret, hmin⟩ := firstRetIdx_some _ _ hfr
    have hw := pySlice_length data a next
    rw [filterHead_some (fun k => isRetByte (data.getD k 0)) a (next - a) (a + j)
      (by omega) (by omega)
      (by
        show isRetByte (data.getD (a + j) 0) = true
        rw [← pySlice_getD data a next j hj]; exact hret)
      (fun m hm1 hm2 => by
        show isRetByte (data.getD m 0) = false
        have hj' : m - a < j := by omega
        have := hmin (m - a) hj'
        rw [pySlice_getD data a next (m - a) (by omega)] at this
        have hma : a + (m - a) = m := by omega
        rwa [hma] at this)]
    push_cast
    ring
  | none =>
    have hnone := firstRetIdx_none _ hfr
    have hw := pySlice_length data a next
    rw [filterHead_none (fun k => isRetByte (data.getD k 0)) a (next - a)
      (fun m hm1 hm2 => by
        show isRetByte (data.getD m 0) = false
        by_cases hwin : m - a < (pySlice data a next).length
        · have := hnone (m - a) hwin
          rw [pySlice_getD data a next (m - a) hwin] at this
          have hma : a + (m - a) = m := by omega
          rwa [hma] at this
        · have hlen : data.length ≤ m := by omega
          rw [List.getD_eq_default _ _ hlen]
          rfl)]

theorem mem_insertKey (a x : Nat) (l : List Nat) :
    x ∈ insertKey a l ↔ x = a ∨ x ∈ l := by
  induction l with
  | nil => simp [insertKey]
  | cons b bs ih =>
    rw [insertKey]
    by_cases h1 : a < b
    · rw [if_pos h1]; simp
    · rw [if_neg h1]
      by_cases h2 : a = b
      · rw [if_pos h2]; subst h2; simp
      · rw [if_neg h2]
        simp only [List.mem_cons, ih]
        tauto

theorem sorted_insertKey (a : Nat) (l : List Nat) (hs : l.Sorted (· < ·)) :
    (insertKey a l).Sorted (· < ·) := by
  induction l with
  | nil => simp [insertKey]
  | cons b bs ih =>
    rw [List.sorted_cons] at hs
    rw [insertKey]
    by_cases h1 : a < b
    · rw [if_pos h1, List.sorted_cons]
      refine ⟨?_, List.sorted_cons.mpr hs⟩
      intro x hx
      rcases List.mem_cons.mp hx with rfl | hx
      · exact h1
      · exact lt_trans h1 (hs.1 x hx)
    · rw [if_neg h1]
      by_cases h2 : a = b
      · rw [if_pos h2]; exact List.sorted_cons.mpr hs
      · rw [if_neg h2, List.sorted_cons]
        refine ⟨?_, ih hs.2⟩
        intro x hx
        rcases (mem_insertKey a x bs).mp hx with rfl | hx
        · omega
        · exact hs.1 x hx

theorem sorted_foldr_insertKey (l base : List Nat) (hb : base.Sorted (· < ·)) :
    (l.foldr insertKey base).Sorted (· < ·) := by
  induction l with
  | nil => simpa using hb
  | cons a as ih => exact sorted_insertKey a _ ih

theorem mem_foldr_insertKey (l base : List Nat) (x : Nat) :
    x ∈ l.foldr insertKey base ↔ x ∈ l ∨ x ∈ base := by
  induction l with
  | nil => simp
  | cons a as ih =>
    simp only [List.foldr_cons, mem_insertKey, ih, List.mem_cons]
    tauto

theorem sortedKeys_sorted (data : List Nat) (h : MZHeader) :
    (sortedKeys data h).Sorted (· < ·) := by
  exact sorted_foldr_insertKey _ _ (by simp)

theorem mem_sortedKeys (data : List Nat) (h : MZHeader) (x : Nat) :
    x ∈ sortedKeys data h ↔
      (x ∈ callTargets data h ∧ h.codeStart ≤ x) ∨ x = h.entryPoint := by
  rw [sortedKeys, mem_foldr_insertKey]
  simp [List.mem_filter]

theorem entry_mem_sortedKeys (data : List Nat) (h : MZHeader) :
    h.entryPoint ∈ sortedKeys data h :=
  (mem_sortedKeys data h _).mpr (Or.inr rfl)

theorem buildExport_length (data : List Nat) (h : MZHeader) (K l : List Nat) :
    (buildExport data h K l).length = l.length := by
  induction l with
  | nil => rfl
  | cons a rest ih => simp [buildExport, ih]

theorem buildExport_map_addr (data : List Nat) (h : MZHeader) (K l : List Nat) :
    (buildExport data h K l).map (fun r => r.entryAddr) = l := by
  induction l with
  | nil => rfl
  | cons a rest ih => simp [buildExport, ih, mkRecord]

theorem buildExport_mem (data : List Nat) (h : MZHeader) (K l : List Nat)
    (rec : ExportedFunction) (hm : rec ∈ buildExport data h K l) :
    ∃ a next, a ∈ l ∧ rec = mkRecord data h K a next := by
  induction l with
  | nil => simp [buildExport] at hm
  | cons a rest ih =>
    rcases List.mem_cons.mp hm with hh | ht
    · exact ⟨a, _, List.mem_cons_self a rest, hh⟩
    · obtain ⟨a', next', ha', hrec⟩ := ih ht
      exact ⟨a', next', List.mem_cons_of_mem a ha', hrec⟩

theorem buildExport_getD (data : List Nat) (h : MZHeader) (K : List Nat) :
    ∀ (l : List Nat) (i : Nat), i < l.length →
      (buildExport data h K l).getD i default =
        mkRecord data h K (l.getD i 0)
          (if i + 1 < l.length then l.getD (i + 1) 0 else data.length) := by
  intro l
  induction l with
  | nil => intro i hi; simp at hi
  | cons a rest ih =>
    intro i hi
    cases i with
    | zero =>
      cases rest with
      | nil => simp [buildExport]
      | cons b bs => simp [buildExport]
    | succ n =>
      have hn : n < rest.length := by simpa using hi
      have := ih n hn
      simp only [buildExport, List.getD_cons_succ, List.length_cons]
      rw [this]
      by_cases hc : n + 1 < rest.length
      · rw [if_pos hc, if_pos (by omega)]
      · rw [if_neg hc, if_neg (by omega)]

theorem callEdgesAux_inv (cs dlen : Nat) (code : List Nat) :
    ∀ fuel i e, e ∈ callEdgesAux cs dlen code fuel i →
      cs ≤ e.1 ∧ e.1 - cs < code.length ∧
      (code.getD (e.1 - cs) 0 = 0xE8 ∨ code.getD (e.1 - cs) 0 = 0x9A) ∧
      e.2 < dlen := by
  intro fuel
  induction fuel with
  | zero => intro i e he; simp [callEdgesAux] at he
  | succ f ih =>
    intro i e he
    rw [callEdgesAux] at he
    by_cases hcond : i < code.length - 3
    · rw [if_pos hcond] at he
      by_cases hop1 : code.getD i 0 = 0xE8
      · rw [if_pos hop1] at he
        rcases List.mem_append.mp he with hh | ht
        · by_cases hacc : i + 3 ≤ code.length ∧ 0 ≤ nearTarget cs code i ∧
              nearTarget cs code i < (dlen : Int)
          · rw [if_pos hacc] at hh
            rcases List.mem_singleton.mp hh with rfl
            refine ⟨by omega, by simpa using (by omega : i < code.length), ?_, ?_⟩
            · left
              rw [show cs + i - cs = i from by omega]
              exact hop1
            · have h0 := hacc.2.1
              have h1 := hacc.2.2
              simp only []
              omega
          · rw [if_neg hacc] at hh; simp at hh
        · exact ih _ _ ht
      · rw [if_neg hop1] at he
        by_cases hop2 : code.getD i 0 = 0x9A
        · rw [if_pos hop2] at he
          rcases List.mem_append.mp he with hh | ht
          · by_cases hacc : i + 5 ≤ code.length ∧ farTarget code i < dlen
            · rw [if_pos hacc] at hh
              rcases List.mem_singleton.mp hh with rfl
              refine ⟨by omega, by simpa using (by omega : i < code.length), ?_, hacc.2⟩
              right
              rw [show cs + i - cs = i from by omega]
              exact hop2
            · rw [if_neg hacc] at hh; simp at hh
          · exact ih _ _ ht
        · rw [if_neg hop2] at he
          exact ih _ _ he
    · rw [if_neg hcond] at he
      simp at he

theorem callEdges_inv (data : List Nat) (h : MZHeader) (e : Nat × Nat)
    (he : e ∈ callEdges data h) :
    h.codeStart ≤ e.1 ∧ e.1 < data.length ∧
      (data.getD e.1 0 = 0xE8 ∨ data.getD e.1 0 = 0x9A) ∧
      e.2 < data.length := by
  obtain ⟨h1, h2, h3, h4⟩ := callEdgesAux_inv _ _ _ _ _ _ he
  have hcl : (codeRegion data h).length = data.length - h.codeStart := by
    simp [codeRegion]
  have hbyte : (codeRegion data h).getD (e.1 - h.codeStart) 0 = data.getD e.1 0 := by
    rw [codeRegion, getD_drop, show h.codeStart + (e.1 - h.codeStart) = e.1 from by omega]
  refine ⟨h1, by omega, ?_, h4⟩
  rwa [hbyte] at h3

theorem callTargets_lt (data : List Nat) (h : MZHeader) (t : Nat)
    (ht : t ∈ callTargets data h) : t < data.length := by
  obtain ⟨e, he, rfl⟩ := List.mem_map.mp ht
  exact (callEdges_inv data h e he).2.2.2

/-- Every window assigned by the size estimator yields a size in
`[0, 65535]`, provided the window start precedes both its bound and the end
of the file and the file is at most 65535 bytes long. -/
theorem sizeFor_bounds (data : List Nat) (a next : Nat)
    (h1 : a < next) (h2 : a < data.length) (h3 : data.length ≤ 65535) :
    0 ≤ sizeFor data a next ∧ sizeFor data a next ≤ 65535 := by
  cases hfr : firstRetIdx (pySlice data a next) with
  | some j =>
    have hred : sizeFor data a next = (j : Int) + 1 := by
      unfold sizeFor; rw [hfr]
    have hj := (firstRetIdx_some _ _ hfr).1
    rw [pySlice_length] at hj
    rw [hred]
    constructor <;> omega
  | none =>
    have hred : sizeFor data a next = min ((next : Int) - (a : Int)) 65535 := by
      unfold sizeFor; rw [hfr]
    rw [hred]
    rcases min_cases ((next : Int) - (a : Int)) 65535 with ⟨hm, hle⟩ | ⟨hm, hlt⟩ <;>
      rw [hm] <;> constructor <;> omega

/-- The address list underlying the final catalog (the keys of
`self.functions`): every element is either the entry point or an accepted
in-code-region call target, each of which lies inside the file whenever the
entry point does. -/
theorem sortedKeys_lt (data : List Nat) (h : MZHeader)
    (hent : h.entryPoint < data.length) (x : Nat) (hx : x ∈ sortedKeys data h) :
    x < data.length := by
  rcases (mem_sortedKeys data h x).mp hx with ⟨hct, _⟩ | rfl
  · exact callTargets_lt data h x hct
  · exact hent

theorem exportFunctions_eq (data : List Nat) (h : MZHeader) (fns : List ExportedFunction)
    (hp : parseMZ data = some h) (he : exportFunctions data = some fns) :
    fns = buildExport data h (sortedKeys data h) (sortedKeys data h) := by
  rw [exportFunctions, hp, Option.map_some'] at he
  exact (Option.some.inj he).symm

/-! # Claims -/

/-- Claim C1, counterexample: a 26-byte image whose declared header size
puts `code_start` (= 65536) past the end of the buffer and whose
`entry_linear` (= 65536) is out of bounds is nevertheless parsed without
error, and a (one-record) catalog is produced for it. -/
theorem claim_C1_counterexample :
    (parseMZ imgOOB).isSome = true ∧
    ((parseMZ imgOOB).getD default).codeStart = 65536 ∧
    ((parseMZ imgOOB).getD default).entryPoint = 65536 ∧
    imgOOB.length = 26 ∧
    ((exportFunctions imgOOB).getD []).map
      (fun r => (r.name, r.entryAddr, r.size_bytes)) =
      [("entry", 65536, -65510)] :=
  ⟨rfl, rfl, rfl, rfl, rfl⟩

/-- Claim C1, amended: header parsing performs no bounds check at all — it
succeeds on exactly the buffers that carry the `MZ` magic and the full
26-byte header, and whenever it succeeds a catalog is produced, however far
out of bounds `code_start` or `entry_linear` may be. -/
theorem claim_C1 (data : List Nat) :
    (parseMZ data).isSome =
      (decide (data.take 2 = [77, 90]) && decide (26 ≤ data.length)) ∧
    (exportFunctions data).isSome = (parseMZ data).isSome := by
  constructor
  · by_cases h1 : data.take 2 = [77, 90] <;> by_cases h2 : 26 ≤ data.length <;>
      simp [parseMZ, h1, h2]
  · cases hp : parseMZ data <;> simp [exportFunctions, hp]

/-- Claim C2, counterexample: the accepted 32-byte image `imgEntryOOB`
(entry point 100, past the end of the file) exports a catalog whose single
record has `size_bytes = -68`, a negative value. -/
theorem claim_C2_counterexample :
    ((exportFunctions imgEntryOOB).getD []).map (fun r => r.size_bytes) = [-68] ∧
    ¬ (0 : Int) ≤ -68 :=
  ⟨rfl, by decide⟩

/-- Claim C5: for every input, the exported function array is strictly
ascending by entry linear address, hence no two records share an address. -/
theorem claim_C5 (data : List Nat) :
    (((exportFunctions data).getD []).map (fun r => r.entryAddr)).Sorted (· < ·) ∧
    (((exportFunctions data).getD []).map (fun r => r.entryAddr)).Pairwise (· ≠ ·) := by
  cases hp : parseMZ data with
  | none => simp [exportFunctions, hp]
  | some h =>
    have hresolve : (exportFunctions data).getD [] =
        buildExport data h (sortedKeys data h) (sortedKeys data h) := by
      simp [exportFunctions, hp]
    rw [hresolve, buildExport_map_addr]
    exact ⟨sortedKeys_sorted data h,
      (sortedKeys_sorted data h).imp (fun hlt => Nat.ne_of_lt hlt)⟩

/-- Claim C6: subsystem classification is a pure function of the membership
of the interrupt-usage list — lists with the same element set classify
identically — and it follows the fixed priority table, first match wins;
in particular both insertion orders of `{0x10, 0x21}` yield `video`. -/
theorem claim_C6 :
    (∀ l₁ l₂ : List String, (∀ s, s ∈ l₁ ↔ s ∈ l₂) →
      classify_subsystem l₁ = classify_subsystem l₂) ∧
    classify_subsystem ["0x10", "0x21"] = "video" ∧
    classify_subsystem ["0x21", "0x10"] = "video" ∧
    classify_subsystem ["0x10"] = "video" ∧
    classify_subsystem ["0x21"] = "dos" ∧
    classify_subsystem ["0x16"] = "input" ∧
    classify_subsystem ["0x08"] = "timer" ∧
    classify_subsystem ["0x1C"] = "timer" ∧
    classify_subsystem ["0x33"] = "mouse" ∧
    classify_subsystem ["0x80"] = "sound" ∧
    classify_subsystem ["0x81"] = "sound" ∧
    classify_subsystem ["0x33", "0x16"] = "input" ∧
    classify_subsystem [] = "unknown" := by
  refine ⟨?_, rfl, rfl, rfl, rfl, rfl, rfl, rfl, rfl, rfl, rfl, rfl, rfl⟩
  intro l₁ l₂ hmem
  unfold classify_subsystem
  simp only [hmem]

/-- Claim C6, witness: order independence applied to a concrete pair of
lists with equal element sets. -/
theorem claim_C6_witness :
    classify_subsystem ["0x21", "0x10", "0x21"] = classify_subsystem ["0x10", "0x21"] :=
  claim_C6.1 _ _ (by
    intro s
    constructor <;> intro hs <;> simp only [List.mem_cons, List.not_mem_nil] at hs ⊢ <;>
      tauto)

/-- Claim C2, amended: when additionally the entry point lies inside the
image and the image holds at most 65535 bytes, every exported `size_bytes`
is a non-negative integer at most 65535.  (The two extra hypotheses are
forced: an out-of-bounds entry point yields a negative size — see the
counterexample — and the return-opcode branch of the estimator is not
clamped, so a window longer than 65535 bytes could exceed the bound.) -/
theorem claim_C2 (data : List Nat) (h : MZHeader) (fns : List ExportedFunction)
    (hp : parseMZ data = some h) (he : exportFunctions data = some fns)
    (hlen : data.length ≤ 65535) (hent : h.entryPoint < data.length) :
    ∀ rec ∈ fns, 0 ≤ rec.size_bytes ∧ rec.size_bytes ≤ 65535 := by
  intro rec hrec
  have hfns := exportFunctions_eq data h fns hp he
  subst hfns
  set K := sortedKeys data h with hK
  obtain ⟨i, hi, hgetElem⟩ := List.mem_iff_getElem.mp hrec
  have hleneq : (buildExport data h K K).length = K.length := buildExport_length data h K K
  have hiK : i < K.length := by omega
  have hrec_eq : rec = (buildExport data h K K).getD i default := by
    rw [List.getD_eq_getElem _ _ hi, hgetElem]
  rw [hrec_eq, buildExport_getD data h K K i hiK]
  set a := K.getD i 0 with ha
  set next := (if i + 1 < K.length then K.getD (i + 1) 0 else data.length) with hnext
  have haK : a ∈ K := by
    rw [ha, List.getD_eq_getElem _ _ hiK]
    exact List.getElem_mem hiK
  have halt : a < data.length := sortedKeys_lt data h hent a haK
  have hanext : a < next := by
    rw [hnext]
    by_cases hc : i + 1 < K.length
    · rw [if_pos hc]
      have hs := sortedKeys_sorted data h
      have hij := (List.pairwise_iff_getElem.mp hs) i (i + 1) hiK hc (by omega)
      rw [ha, List.getD_eq_getElem _ _ hiK, List.getD_eq_getElem _ _ hc]
      exact hij
    · rw [if_neg hc]; exact halt
  exact sizeFor_bounds data a next hanext halt hlen

/-- Claim C2, witness: the amended bound evaluated on a concrete accepted
image whose entry point is in bounds. -/
theorem claim_C2_witness :
    0 ≤ (((exportFunctions imgEntryProl).getD []).getD 0 default).size_bytes ∧
    (((exportFunctions imgEntryProl).getD []).getD 0 default).size_bytes ≤ 65535 :=
  claim_C2 imgEntryProl ((parseMZ imgEntryProl).getD default)
    ((exportFunctions imgEntryProl).getD []) rfl rfl (by decide) (by decide)
    (((exportFunctions imgEntryProl).getD []).getD 0 default) (by decide)

/-- Claim C3: every exported record's `size_bytes` satisfies the
specification's size rule — window bounded by the next function's entry
address in ascending order (or end of file for the last record): the offset
of the first return-family opcode in the window minus the start plus one,
or `min(next_start − this_start, 65535)` when the window holds no such
opcode. -/
theorem claim_C3 (data : List Nat) (h : MZHeader) (fns : List ExportedFunction)
    (hp : parseMZ data = some h) (he : exportFunctions data = some fns)
    (i : Nat) (hi : i < fns.length) :
    (fns.getD i default).size_bytes =
      specSizeBytes data (fns.getD i default).entryAddr
        (if i + 1 < fns.length then (fns.getD (i + 1) default).entryAddr
         else data.length) := by
  have hfns := exportFunctions_eq data h fns hp he
  subst hfns
  set K := sortedKeys data h with hK
  have hleneq : (buildExport data h K K).length = K.length := buildExport_length data h K K
  have hiK : i < K.length := by omega
  simp only [hleneq] at hi ⊢
  rw [buildExport_getD data h K K i hiK]
  by_cases hc : i + 1 < K.length
  · rw [buildExport_getD data h K K (i + 1) hc, if_pos hc, if_pos hc]
    show sizeFor data (K.getD i 0) (K.getD (i + 1) 0) =
      specSizeBytes data (K.getD i 0) (K.getD (i + 1) 0)
    exact sizeFor_eq_spec data _ _
  · rw [if_neg hc, if_neg hc]
    show sizeFor data (K.getD i 0) data.length =
      specSizeBytes data (K.getD i 0) data.length
    exact sizeFor_eq_spec data _ _

/-- Claim C3, witness: the size rule evaluated at the first record of a
concrete image (prologue then RET at window offset 3, size 4). -/
theorem claim_C3_witness :
    (((exportFunctions imgEntryProl).getD []).getD 0 default).size_bytes =
      specSizeBytes imgEntryProl
        (((exportFunctions imgEntryProl).getD []).getD 0 default).entryAddr
        (if 0 + 1 < ((exportFunctions imgEntryProl).getD []).length then
          (((exportFunctions imgEntryProl).getD []).getD (0 + 1) default).entryAddr
         else imgEntryProl.length) :=
  claim_C3 imgEntryProl ((parseMZ imgEntryProl).getD default)
    ((exportFunctions imgEntryProl).getD []) rfl rfl 0 (by decide)

/-- Claim C4, counterexample: in `imgEntryProl` the entry point 32 is
matched by the prologue scan, is not a call target, and nevertheless is the
entry address of an exported record (the synthetic entry record). -/
theorem claim_C4_counterexample :
    32 ∈ prologueOffsets imgEntryProl ((parseMZ imgEntryProl).getD default) ∧
    32 ∉ callTargets imgEntryProl ((parseMZ imgEntryProl).getD default) ∧
    ((exportFunctions imgEntryProl).getD []).map (fun r => r.entryAddr) = [32] :=
  ⟨by decide, by decide, rfl⟩

/-- Claim C4, amended: no address matched by the prologue scan but not by
the call-target scan appears as a record's entry address, unless it is the
program's entry point (whose synthetic record exists regardless of both
scans). -/
theorem claim_C4 (data : List Nat) (h : MZHeader) (fns : List ExportedFunction)
    (hp : parseMZ data = some h) (he : exportFunctions data = some fns)
    (a : Nat) (hpro : a ∈ prologueOffsets data h)
    (hct : a ∉ callTargets data h) (hne : a ≠ h.entryPoint) :
    ∀ rec ∈ fns, rec.entryAddr ≠ a := by
  intro rec hrec
  have hfns := exportFunctions_eq data h fns hp he
  subst hfns
  obtain ⟨a', next', ha', rfl⟩ := buildExport_mem _ _ _ _ _ hrec
  intro haddr
  have haa : a' = a := haddr
  subst haa
  rcases (mem_sortedKeys data h a').mp ha' with ⟨hct', _⟩ | hentry
  · exact hct hct'
  · exact hne hentry

/-- Claim C4, witness: in `imgTwoProl` the address 36 is prologue-only and
distinct from the entry point, and indeed no record carries it. -/
theorem claim_C4_witness :
    (((exportFunctions imgTwoProl).getD []).getD 0 default).entryAddr ≠ 36 :=
  claim_C4 imgTwoProl ((parseMZ imgTwoProl).getD default)
    ((exportFunctions imgTwoProl).getD []) rfl rfl 36 (by decide) (by decide)
    (by decide) (((exportFunctions imgTwoProl).getD []).getD 0 default) (by decide)

/-- Claim C7: every exported record's caller list holds at most 10 entries
and consists exactly of the first 10 recorded call sites in discovery
order (`f.callers[:10]` at export time). -/
theorem claim_C7 (data : List Nat) (h : MZHeader) (fns : List ExportedFunction)
    (hp : parseMZ data = some h) (he : exportFunctions data = some fns) :
    ∀ rec ∈ fns, rec.callers.length ≤ 10 ∧
      rec.callerAddrs = (rawCallers data h rec.entryAddr).take 10 ∧
      rec.callers = rec.callerAddrs.map hexAddr := by
  intro rec hrec
  have hfns := exportFunctions_eq data h fns hp he
  subst hfns
  obtain ⟨a, next, ha, rfl⟩ := buildExport_mem _ _ _ _ _ hrec
  refine ⟨?_, rfl, rfl⟩
  show (((rawCallers data h a).take 10).map hexAddr).length ≤ 10
  rw [List.length_map]
  exact List.length_take_le _ _

/-- Claim C7, witness: the record at address 40 of `imgManyCalls` has
eleven recorded call sites; its exported caller list is their first ten. -/
theorem claim_C7_witness :
    (((exportFunctions imgManyCalls).getD []).getD 1 default).callers.length ≤ 10 ∧
    (((exportFunctions imgManyCalls).getD []).getD 1 default).callerAddrs =
      (rawCallers imgManyCalls ((parseMZ imgManyCalls).getD default)
        (((exportFunctions imgManyCalls).getD []).getD 1 default).entryAddr).take 10 ∧
    (((exportFunctions imgManyCalls).getD []).getD 1 default).callers =
      ((((exportFunctions imgManyCalls).getD []).getD 1 default).callerAddrs).map hexAddr :=
  claim_C7 imgManyCalls ((parseMZ imgManyCalls).getD default)
    ((exportFunctions imgManyCalls).getD []) rfl rfl
    (((exportFunctions imgManyCalls).getD []).getD 1 default) (by decide)

/-- Claim C9: even when the entry point is an accepted call target with
recorded call sites, the exported record at the entry address keeps the
name `entry`, the note `Program entry point`, and an empty caller list —
the synthetic entry record predates the merge and the merge skips existing
addresses, so the call-edge map is never applied to it. -/
theorem claim_C9 (data : List Nat) (h : MZHeader) (fns : List ExportedFunction)
    (hp : parseMZ data = some h) (he : exportFunctions data = some fns)
    (_hct : h.entryPoint ∈ callTargets data h) :
    (∃ rec ∈ fns, rec.entryAddr = h.entryPoint) ∧
    ∀ rec ∈ fns, rec.entryAddr = h.entryPoint →
      rec.name = "entry" ∧ rec.callers = ([] : List String) ∧
      rec.notes = "Program entry point" := by
  have hfns := exportFunctions_eq data h fns hp he
  subst hfns
  constructor
  · have hmem := entry_mem_sortedKeys data h
    rw [← buildExport_map_addr data h (sortedKeys data h) (sortedKeys data h)] at hmem
    obtain ⟨rec, hrec, haddr⟩ := List.mem_map.mp hmem
    exact ⟨rec, hrec, haddr⟩
  · intro rec hrec haddr
    obtain ⟨a, next, ha, rfl⟩ := buildExport_mem _ _ _ _ _ hrec
    have haa : a = h.entryPoint := haddr
    subst haa
    exact ⟨by simp [mkRecord], by simp [mkRecord, rawCallers], by simp [mkRecord]⟩

/-- Claim C9, witness: in `imgSelfEntry` the entry point 32 is a call
target with a recorded call site at offset 40, yet its record keeps name
`entry`, empty callers, and the entry-point note. -/
theorem claim_C9_witness :
    (∃ rec ∈ (exportFunctions imgSelfEntry).getD [],
      rec.entryAddr = ((parseMZ imgSelfEntry).getD default).entryPoint) ∧
    ∀ rec ∈ (exportFunctions imgSelfEntry).getD [],
      rec.entryAddr = ((parseMZ imgSelfEntry).getD default).entryPoint →
        rec.name = "entry" ∧ rec.callers = ([] : List String) ∧
        rec.notes = "Program entry point" :=
  claim_C9 imgSelfEntry ((parseMZ imgSelfEntry).getD default)
    ((exportFunctions imgSelfEntry).getD []) rfl rfl (by decide)

/-- Claim C10: every exported caller entry is the absolute file offset of
the call instruction's opcode byte — it lies inside the file, at or beyond
`code_start`, and the byte stored there is a near-call (`0xE8`) or
far-call (`0x9A`) opcode. -/
theorem claim_C10 (data : List Nat) (h : MZHeader) (fns : List ExportedFunction)
    (hp : parseMZ data = some h) (he : exportFunctions data = some fns) :
    ∀ rec ∈ fns, ∀ c ∈ rec.callerAddrs,
      h.codeStart ≤ c ∧ c < data.length ∧
      (data.getD c 0 = 0xE8 ∨ data.getD c 0 = 0x9A) := by
  intro rec hrec c hc
  have hfns := exportFunctions_eq data h fns hp he
  subst hfns
  obtain ⟨a, next, ha, rfl⟩ := buildExport_mem _ _ _ _ _ hrec
  have hc10 : c ∈ (rawCallers data h a).take 10 := hc
  have hc' : c ∈ rawCallers data h a := List.mem_of_mem_take hc10
  rw [rawCallers] at hc'
  by_cases hae : a = h.entryPoint
  · rw [if_pos hae] at hc'
    simp at hc'
  · rw [if_neg hae, callSourcesFor] at hc'
    obtain ⟨e, he', hsrc⟩ := List.mem_map.mp hc'
    have hem := List.mem_filter.mp he'
    obtain ⟨h1, h2, h3, -⟩ := callEdges_inv data h e hem.1
    subst hsrc
    exact ⟨h1, h2, h3⟩

/-- Claim C10, witness: in `imgManyCalls`, caller 32 of the record at
address 40 is the file offset of a near-call opcode inside the code
region. -/
theorem claim_C10_witness :
    ((parseMZ imgManyCalls).getD default).codeStart ≤ 32 ∧
    32 < imgManyCalls.length ∧
    (imgManyCalls.getD 32 0 = 0xE8 ∨ imgManyCalls.getD 32 0 = 0x9A) :=
  claim_C10 imgManyCalls ((parseMZ imgManyCalls).getD default)
    ((exportFunctions imgManyCalls).getD []) rfl rfl
    (((exportFunctions imgManyCalls).getD []).getD 1 default) (by decide) 32 (by decide)

theorem matchAt_nil (code : List Nat) (idx : Nat) : matchAt code idx [] = true := by
  unfold matchAt
  cases code.drop idx <;> rfl

theorem matchAt_cons_code (c : Nat) (cs : List Nat) (n : Nat) (pat : List Nat) :
    matchAt (c :: cs) (n + 1) pat = matchAt cs n pat := by
  simp [matchAt]

theorem matchAt_cons (code : List Nat) (idx : Nat) (p : Nat) (ps : List Nat) :
    matchAt code idx (p :: ps) = true ↔
      idx < code.length ∧ code.getD idx 0 = p ∧ matchAt code (idx + 1) ps = true := by
  induction code generalizing idx with
  | nil => simp [matchAt, List.isPrefixOf]
  | cons c cs ih =>
    cases idx with
    | zero =>
      simp only [matchAt, List.drop_zero, List.isPrefixOf, Bool.and_eq_true, beq_iff_eq,
        List.length_cons, List.getD_cons_zero]
      constructor
      · rintro ⟨rfl, hps⟩
        exact ⟨by omega, rfl, by simpa [matchAt] using hps⟩
      · rintro ⟨-, rfl, hps⟩
        exact ⟨rfl, by simpa [matchAt] using hps⟩
    | succ n =>
      rw [matchAt_cons_code, ih n]
      simp [matchAt_cons_code]

/-- Claim C8, counterexample: in `imgTailPush` the bare PUSH BP byte at
offset 33 is the last byte of the file; there is no following byte (and the
out-of-range default read 0 is not whitelisted), yet the match is accepted
into the prologue set. -/
theorem claim_C8_counterexample :
    bareAccept (codeRegion imgTailPush ((parseMZ imgTailPush).getD default)) 1 = true ∧
    isPrologueIdx (codeRegion imgTailPush ((parseMZ imgTailPush).getD default)) 1 = true ∧
    1 + 1 = (codeRegion imgTailPush ((parseMZ imgTailPush).getD default)).length ∧
    ((parseMZ imgTailPush).map (fun h => prologueOffsets imgTailPush h)).getD [] = [33] ∧
    (codeRegion imgTailPush ((parseMZ imgTailPush).getD default)).getD 2 0 ∉ whitelistBytes :=
  ⟨rfl, rfl, rfl, rfl, by decide⟩

/-- Claim C8, amended: a bare `0x55` match is accepted exactly when the
following byte exists and is whitelisted, or when the match sits on the
last byte of the scanned region (no following byte, filter skipped);
every other bare match is rejected — and, since the three-byte prologue
patterns all require a whitelisted second byte and the frame-setup byte is
not `0x55`, a rejected position enters the prologue set through no pattern
at all.  Scanning resumes one byte after every match, so acceptance at one
index is independent of every other index. -/
theorem claim_C8 (code : List Nat) (idx : Nat) (hidx : idx < code.length)
    (hb : code.getD idx 0 = 0x55) :
    isPrologueIdx code idx = true ↔
      idx + 1 = code.length ∨
        (idx + 1 < code.length ∧ code.getD (idx + 1) 0 ∈ whitelistBytes) := by
  have hone : matchAt code idx [0x55] = true := by
    rw [matchAt_cons]
    exact ⟨hidx, hb, matchAt_nil code (idx + 1)⟩
  by_cases hend : idx + 1 = code.length
  · constructor
    · intro _
      exact Or.inl hend
    · intro _
      have hbare : bareAccept code idx = true := by
        rw [bareAccept, hone]
        have h2 : ¬ (idx + 1 < code.length) := by omega
        simp [h2]
      rw [isPrologueIdx, hbare]
      simp
  · have hlt : idx + 1 < code.length := by omega
    by_cases hw : code.getD (idx + 1) 0 ∈ whitelistBytes
    · constructor
      · intro _
        exact Or.inr ⟨hlt, hw⟩
      · intro _
        have hbare : bareAccept code idx = true := by
          rw [bareAccept, hone, decide_eq_true hw]
          simp
        rw [isPrologueIdx, hbare]
        simp
    · constructor
      · intro hpro
        exfalso
        rw [isPrologueIdx] at hpro
        simp only [Bool.or_eq_true] at hpro
        rcases hpro with ((((h1 | h2) | h3) | h4) | h5)
        · rw [matchAt_cons] at h1
          obtain ⟨-, -, h1⟩ := h1
          rw [matchAt_cons] at h1
          obtain ⟨-, h1b, -⟩ := h1
          exact hw (by rw [h1b]; decide)
        · rw [matchAt_cons] at h2
          obtain ⟨-, -, h2⟩ := h2
          rw [matchAt_cons] at h2
          obtain ⟨-, h2b, -⟩ := h2
          exact hw (by rw [h2b]; decide)
        · rw [matchAt_cons] at h3
          obtain ⟨-, -, h3⟩ := h3
          rw [matchAt_cons] at h3
          obtain ⟨-, h3b, -⟩ := h3
          exact hw (by rw [h3b]; decide)
        · rw [matchAt_cons] at h4
          obtain ⟨-, h4b, -⟩ := h4
          rw [hb] at h4b
          exact absurd h4b (by decide)
        · rw [bareAccept] at h5
          simp only [Bool.and_eq_true] at h5
          have h5b := h5.2
          simp only [hlt, decide_True, Bool.not_true, Bool.false_or] at h5b
          exact hw (of_decide_eq_true h5b)
      · intro hor
        rcases hor with hend' | ⟨-, hw'⟩
        · omega
        · exact absurd hw' hw

/-- Claim C8, witness: the amended acceptance rule evaluated at the bare
match on the last byte of a two-byte region. -/
theorem claim_C8_witness :
    isPrologueIdx [0x90, 0x55] 1 = true ↔
      1 + 1 = ([0x90, 0x55] : List Nat).length ∨
        (1 + 1 < ([0x90, 0x55] : List Nat).length ∧
          ([0x90, 0x55] : List Nat).getD (1 + 1) 0 ∈ whitelistBytes) :=
  claim_C8 [0x90, 0x55] 1 (by decide) (by decide)
end Discover
